import Mathlib

/-!
Verification development for the nativeshell core (run loop, finalizable
handle registry, context attachments, message channel).  Rust `HashMap`
contents are embedded as association lists with pairwise-distinct keys;
`Instant` is embedded as `Nat`; opaque boxed closures are embedded as
identifiers, together with an explicit effect environment where their
behaviour matters.  Definitions come first, then all theorems.
-/

namespace NativeShell

/-! ### Association-list model of Rust `HashMap` contents -/

/-- `HashMap::get` / lookup of the first entry with the given key. -/
def lookupKey {κ β : Type} [DecidableEq κ] (k : κ) : List (κ × β) → Option β
  | [] => none
  | p :: rest => if p.1 = k then some p.2 else lookupKey k rest

/-- `HashMap::remove`: removes the (first) entry with the given key. -/
def eraseKey {κ β : Type} [DecidableEq κ] (k : κ) : List (κ × β) → List (κ × β)
  | [] => []
  | p :: rest => if p.1 = k then rest else p :: eraseKey k rest

/-- `HashMap::insert`: replaces any existing entry with the given key. -/
def insertKey {κ β : Type} [DecidableEq κ] (k : κ) (v : β) (l : List (κ × β)) :
    List (κ × β) :=
  (k, v) :: eraseKey k l

/-- In-place update through `HashMap::get_mut`. -/
def updateKey {κ β : Type} [DecidableEq κ] (k : κ) (v : β) (l : List (κ × β)) :
    List (κ × β) :=
  l.map (fun p => if p.1 = k then (k, v) else p)

/-- One step of the drain folds used by `finalize_all` and
`State::get_pending_execution`: remove the entry with key `k` from the map
and gather `g` of it. -/
def drainStep {κ β γ : Type} [DecidableEq κ] (g : β → List γ)
    (acc : List (κ × β) × List γ) (k : κ) : List (κ × β) × List γ :=
  match lookupKey k acc.1 with
  | some v => (eraseKey k acc.1, acc.2 ++ g v)
  | none => acc

/-! ### Darwin run loop core (`platform/darwin/run_loop.rs`)

`Instant` is embedded as `Nat`; boxed callbacks (`Box<dyn FnOnce()>`) are
embedded as `Nat` identifiers interpreted by an effect environment, so that
executing a callback can visibly mutate the run-loop state. -/

/-- `Timer { scheduled: Instant, callback: Callback }`. -/
structure Timer (α : Type) where
  scheduled : Nat
  callback : α
deriving Repr, DecidableEq

/-- The callback/timer fields of `State` (the platform fields `timer`,
`source` and `run_loop_mode` are foreign objects and carry no data relevant
to draining). -/
structure RunLoopState (α : Type) where
  callbacks : List α
  timers : List (Nat × Timer α)
deriving Repr, DecidableEq

/-- `StatePendingExecution`. -/
structure StatePendingExecution (α : Type) where
  callbacks : List α
  timers : List (Timer α)
deriving Repr, DecidableEq

/-- The filter `v.1.scheduled <= now` used to collect pending timers. -/
def dueCond (now : Nat) (t : Timer α) : Bool := t.scheduled ≤ now

/-- `State::get_pending_execution`: drains all queued callbacks and removes
every timer whose scheduled instant is at or before `now`, returning the
batch together with the state left behind.  The sequential
`pending.iter().map(|h| self.timers.remove(h).unwrap())` is the drain
fold. -/
def get_pending_execution (now : Nat) (s : RunLoopState α) :
    StatePendingExecution α × RunLoopState α :=
  let pending := (s.timers.filter (fun v => dueCond now v.2)).map Prod.fst
  let drained := pending.foldl (drainStep (fun t => [t])) (s.timers, [])
  ({ callbacks := s.callbacks, timers := drained.2 },
    { callbacks := [], timers := drained.1 })

/-- What executing one opaque callback may do to the run-loop state:
enqueue an immediate callback (`PlatformRunLoopSender::send`), schedule a
timer (`PlatformRunLoop::schedule`) or cancel one (`unschedule`). -/
inductive RunLoopEffect where
  | pushCallback (c : Nat)
  | scheduleTimer (h : Nat) (sched : Nat) (c : Nat)
  | cancelTimer (h : Nat)
deriving Repr, DecidableEq

def applyEffect (s : RunLoopState Nat) (e : RunLoopEffect) : RunLoopState Nat :=
  match e with
  | .pushCallback c => { s with callbacks := s.callbacks ++ [c] }
  | .scheduleTimer h sched c =>
      { s with timers := insertKey h ⟨sched, c⟩ s.timers }
  | .cancelTimer h => { s with timers := eraseKey h s.timers }

/-- Running a callback identifier under an effect environment. -/
def runCallback (env : Nat → List RunLoopEffect) (s : RunLoopState Nat)
    (c : Nat) : RunLoopState Nat :=
  (env c).foldl applyEffect s

/-- `State::poll`: collect the pending batch, then run the immediate
callbacks, then the due timers.  Returns the final state and the list of
executed callback identifiers in execution order. -/
def pollRunLoop (env : Nat → List RunLoopEffect) (now : Nat)
    (s : RunLoopState Nat) : RunLoopState Nat × List Nat :=
  let execution := (get_pending_execution now s).1
  let s1 := (get_pending_execution now s).2
  let s2 := execution.callbacks.foldl (runCallback env) s1
  let s3 := (execution.timers.map Timer.callback).foldl (runCallback env) s2
  (s3, execution.callbacks ++ execution.timers.map Timer.callback)

/-! ### Finalizable handle registry (`finalizable_handle.rs`)

Finalizer closures (`Capsule<Box<dyn FnOnce()>>`) are embedded as `Nat`
identifiers; weak persistent handles (`DartWeakPersistentHandle`) as
`Option Nat` tokens; handle ids (`isize`) as `Int`. -/

/-- `FinalizableObjectState`. -/
structure FinalizableObjectState where
  handle : Option Nat
  isolate_id : Nat
  external_size : Int
  finalizer : Option Nat
deriving Repr, DecidableEq

/-- `FinalizableHandleState`: the global registry. -/
structure FinalizableHandleState where
  objects : List (Int × FinalizableObjectState)
deriving Repr, DecidableEq

/-- `FinalizableHandle::new`: allocates the next id from the counter and
inserts an unattached row carrying the finalizer.  Returns (new registry,
id of the created handle, next counter value). -/
def newFinalizableHandle (st : FinalizableHandleState) (counter : Int)
    (external_size : Int) (isolate_id : Nat) (fin : Nat) :
    FinalizableHandleState × Int × Int :=
  (⟨insertKey counter
      { handle := none, isolate_id := isolate_id,
        external_size := external_size, finalizer := some fin }
      st.objects⟩,
    counter, counter + 1)

/-- `FinalizableHandle::is_finalized`: true when the registry holds no row
for the id. -/
def is_finalized (st : FinalizableHandleState) (id : Int) : Bool :=
  (lookupKey id st.objects).isNone

/-- `FinalizableHandle::is_attached`. -/
def is_attached (st : FinalizableHandleState) (id : Int) : Bool :=
  ((lookupKey id st.objects).map (fun s => s.handle.isSome)).getD false

/-- `impl Drop for FinalizableHandle`: clears the finalizer of the row (if
present), then removes the row only when it holds no weak persistent
handle.  Returns the new registry and the row value removed from the map
(`HashMap::remove`), which is subsequently dropped. -/
def dropFinalizableHandle (st : FinalizableHandleState) (id : Int) :
    FinalizableHandleState × Option FinalizableObjectState :=
  match lookupKey id st.objects with
  | some obj =>
      let cleared := { obj with finalizer := none }
      let st1 : FinalizableHandleState := ⟨updateKey id cleared st.objects⟩
      if obj.handle.isSome then (st1, none)
      else (⟨eraseKey id st1.objects⟩, some cleared)
  | none => (st, none)

/-- The condition of `finalize_all`:
`object.isolate_id == isolate && object.handle.is_none()`. -/
def finalizeCond (isolate : Nat) (obj : FinalizableObjectState) : Bool :=
  obj.isolate_id == isolate && obj.handle.isNone

/-- `FinalizableHandleState::finalize_all`: collects the ids of the
still-unattached rows of the given isolate, removes them while gathering
their remaining finalizers, and, when at least one finalizer was gathered,
hands the whole list to the run-loop sender in a single `send`.  The second
component is the list of scheduled sends (each send carrying the batch of
finalizers it will run on the owner thread, later). -/
def finalize_all (st : FinalizableHandleState) (isolate : Nat) :
    FinalizableHandleState × List (List Nat) :=
  let to_remove :=
    (st.objects.filter (fun p => finalizeCond isolate p.2)).map Prod.fst
  let drained :=
    to_remove.foldl (drainStep (fun obj => obj.finalizer.toList))
      (st.objects, [])
  (⟨drained.1⟩, if drained.2.isEmpty then [] else [drained.2])

/-- `impl Drop for FinalizableObjectState`: panics exactly when the row
still holds a weak persistent handle. -/
def objectDropPanics (obj : FinalizableObjectState) : Bool :=
  obj.handle.isSome

/-- The GC callback (`finalizable_handle_native::finalizer`): takes the
weak persistent handle out of the row (the
`delete_weak_persistent_handle` call is foreign), then schedules
`finalize_handle` through the sender. -/
def gcFinalizer (st : FinalizableHandleState) (id : Int) :
    FinalizableHandleState :=
  match lookupKey id st.objects with
  | some obj => ⟨updateKey id { obj with handle := none } st.objects⟩
  | none => st

/-- `finalizable_handle_native::finalize_handle`: removes the row, takes
its finalizer and runs it when still present.  Returns (new registry, the
row value that gets dropped at the end of the scope, the finalizer that was
run). -/
def finalize_handle (st : FinalizableHandleState) (id : Int) :
    FinalizableHandleState × Option FinalizableObjectState × Option Nat :=
  match lookupKey id st.objects with
  | some obj =>
      (⟨eraseKey id st.objects⟩, some { obj with finalizer := none },
        obj.finalizer)
  | none => (st, none, none)

/-! ### Context attachments (`context.rs`)

`TypeId` keys are embedded as `Nat`; only the insertion index of each boxed
attachment is relevant to the drop order, so the map
`TypeId -> (Box<dyn Any>, usize)` is embedded as a list of
(type id, insertion index) pairs. -/

/-- `Context::get_attachment`: if the type key is absent, insert it with
the current map size as its insertion index. -/
def get_attachment (st : List (Nat × Nat)) (tid : Nat) : List (Nat × Nat) :=
  if (lookupKey tid st).isSome then st else st ++ [(tid, st.length)]

/-- The attachment map produced by a sequence of `get_attachment` calls on
a fresh `Context`. -/
def buildAttachments (reqs : List Nat) : List (Nat × Nat) :=
  reqs.foldl get_attachment []

/-- The destruction loop of `impl Drop for Context`: while the map is
non-empty, find the entry whose insertion index is `len - 1`, remove it
(its destructor runs to completion here), and break once index 0 was
removed.  `none` models the `expect("Attachment to remove not found")`
panic.  Returns the type ids in destruction order. -/
def contextDropLoop : Nat → List (Nat × Nat) → Option (List Nat)
  | 0, _ => some []
  | fuel + 1, att =>
    if att.isEmpty then some []
    else
      let to_remove_index := att.length - 1
      match att.find? (fun e => e.2 == to_remove_index) with
      | none => none
      | some e =>
          if to_remove_index = 0 then some [e.1]
          else
            match contextDropLoop fuel (eraseKey e.1 att) with
            | some rest => some (e.1 :: rest)
            | none => none

/-- Destruction order of a whole attachment map (fuel is the map size: the
loop removes one entry per iteration). -/
def contextDropOrder (att : List (Nat × Nat)) : Option (List Nat) :=
  contextDropLoop att.length att

/-- The insertion order realised by a sequence of `get_attachment`
requests: first occurrences, in order. -/
def firstOccurrences (reqs : List Nat) : List Nat :=
  reqs.foldl (fun acc r => if r ∈ acc then acc else acc ++ [r]) []

/-- Pairs each element with consecutive indices starting at `n`. -/
def indexFrom (n : Nat) : List Nat → List (Nat × Nat)
  | [] => []
  | t :: ts => (t, n) :: indexFrom (n + 1) ts

/-! ### Mock message channel (`message_channel/mock_message_channel.rs`)

Handlers and delegates (boxed closures / `Rc<dyn MessageChannelDelegate>`)
are embedded as `Nat` identifiers.  The `delegates` HashMap's `values()`
iteration order is unspecified, so operations that notify delegates take
the iteration order as an explicit argument, constrained in theorems to be
a permutation of the registered delegates. -/

/-- `MockIsolate`: channel name -> message handler. -/
structure MockIsolate where
  handlers : List (String × Nat)
deriving Repr, DecidableEq

/-- `MessageChannelInner`. -/
structure MessageChannelInner where
  next_isolate : Nat
  isolates : List (Nat × MockIsolate)
  delegates : List (String × Nat)
deriving Repr, DecidableEq

/-- Outcome of `MessageChannel::send_message`, as seen by the reply
callback and the handlers. -/
inductive SendMessageOutcome where
  | handlerInvoked (handler : Nat)
  | channelNotFound (channel : String)
  | invalidIsolate
deriving Repr, DecidableEq

/-- `MessageChannel::send_message`: looks up the target isolate; absent
targets make the reply receive `Err(InvalidIsolate)` and invoke no
handler.  (The recursive `attach_finalizable_handles` walk over the payload
does not affect routing and is omitted here.) -/
def send_message (st : MessageChannelInner) (target : Nat)
    (channel : String) : SendMessageOutcome :=
  match lookupKey target st.isolates with
  | some iso =>
      match lookupKey channel iso.handlers with
      | some h => .handlerInvoked h
      | none => .channelNotFound channel
  | none => .invalidIsolate

/-- `MessageChannel::register_delegate`: at most one delegate per channel,
last registration wins; list order is registration order. -/
def register_delegate (st : MessageChannelInner) (channel : String)
    (d : Nat) : MessageChannelInner :=
  { st with delegates := eraseKey channel st.delegates ++ [(channel, d)] }

/-- `MessageChannelInner::register_isolate`: assigns the next isolate id,
inserts the isolate, then notifies `on_isolate_joined` on every delegate in
the HashMap `values()` iteration order `iter`.  Returns (new state, new
isolate id, notifications as (delegate, isolate id) pairs in invocation
order). -/
def register_isolate (st : MessageChannelInner) (iso : MockIsolate)
    (iter : List (String × Nat)) :
    MessageChannelInner × Nat × List (Nat × Nat) :=
  let isolate_id := st.next_isolate
  ({ st with
      next_isolate := isolate_id + 1,
      isolates := insertKey isolate_id iso st.isolates },
    isolate_id,
    iter.map (fun d => (d.2, isolate_id)))

/-- `MessageChannelInner::unregister_isolate`: runs `finalize_all` on the
finalizable-handle registry for the isolate and notifies
`on_isolate_exited` on every delegate; it does not modify the `isolates`
map.  Returns (channel state, finalize_all result, notifications). -/
def unregister_isolate (st : MessageChannelInner)
    (registry : FinalizableHandleState) (iso : Nat)
    (iter : List (String × Nat)) :
    MessageChannelInner × (FinalizableHandleState × List (List Nat)) ×
      List (Nat × Nat) :=
  (st, finalize_all registry iso, iter.map (fun d => (d.2, iso)))

/-! ### Run loop sender (`run_loop.rs`) -/

/-- Modelled from the spec: `BlockingVariable` (its source file
`util/blocking_variable.rs` is not among the provided sources) is a
single-use synchronization slot; `set` stores the produced value and wakes
the waiter, `get_blocking` blocks until a value is present and returns it
(embedded as returning the stored value, with `none` standing for a caller
that would still be blocked). -/
structure BlockingVariable (R : Type) where
  value : Option R

/-- `BlockingVariable::new`. -/
def mkBlockingVariable (R : Type) : BlockingVariable R := ⟨none⟩

def BlockingVariable.set {R : Type} (_v : BlockingVariable R) (r : R) :
    BlockingVariable R := ⟨some r⟩

def BlockingVariable.get_blocking {R : Type} (v : BlockingVariable R) :
    Option R := v.value

/-- The thread identity stored in `RunLoopSender`. -/
structure RunLoopSenderModel where
  thread_id : Nat
deriving Repr, DecidableEq

/-- `RunLoopSender::send_and_wait`, caller side: when the calling thread is
the owner thread, the callback runs synchronously in place; otherwise a
closure setting the blocking variable is enqueued to the owner thread.
Returns (value produced in place, enqueued closures). -/
def send_and_wait {R : Type} (sender : RunLoopSenderModel)
    (callerThread : Nat) (cb : Unit → R) :
    Option R × List (BlockingVariable R → BlockingVariable R) :=
  if callerThread = sender.thread_id then (some (cb ()), [])
  else (none, [fun var => var.set (cb ())])

/-- The owner thread servicing the enqueued closures. -/
def ownerService {R : Type}
    (queue : List (BlockingVariable R → BlockingVariable R))
    (var : BlockingVariable R) : BlockingVariable R :=
  queue.foldl (fun v f => f v) var

/-- The value the caller of `send_and_wait` finally receives: the in-place
result on the owner thread, else the blocking variable's content after the
owner thread has serviced the queue. -/
def send_and_wait_result {R : Type} (sender : RunLoopSenderModel)
    (callerThread : Nat) (cb : Unit → R) : Option R :=
  match send_and_wait sender callerThread cb with
  | (some r, _) => some r
  | (none, q) => (ownerService q (mkBlockingVariable R)).get_blocking

/-! ### JoinHandle (`run_loop.rs`) -/

/-- `std::task::Poll`. -/
inductive PollOutcome (T : Type) where
  | ready (value : T)
  | pending
deriving Repr, DecidableEq

/-- The `value` and `waker` cells of `Task` shared with `JoinHandle`. -/
structure TaskSharedState (T W : Type) where
  value : Option T
  waker : Option W
deriving Repr, DecidableEq

/-- `impl Future for JoinHandle::poll`: takes the produced value out; when
one was present, returns `Ready` with it; otherwise stores the polling
context's waker only if none is stored (`get_or_insert_with`) and returns
`Pending`. -/
def joinHandlePoll {T W : Type} (st : TaskSharedState T W) (cxWaker : W) :
    PollOutcome T × TaskSharedState T W :=
  match st.value with
  | some v => (.ready v, { st with value := none })
  | none => (.pending, { value := none, waker := some (st.waker.getD cxWaker) })

/-! ### Concrete inputs used by witnesses -/

/-- A registry with unattached rows of isolates 1 and 2, an attached row of
isolate 1, and an unattached row of isolate 1 whose finalizer was already
taken. -/
def regSample : FinalizableHandleState :=
  ⟨[(0, ⟨none, 1, 8, some 5⟩), (1, ⟨none, 2, 0, some 6⟩),
    (2, ⟨some 3, 1, 0, some 7⟩), (3, ⟨none, 1, 0, none⟩)]⟩

/-- A run-loop state with two queued callbacks and two timers, one due at
instant 5. -/
def rlSample : RunLoopState Nat :=
  ⟨[0, 1], [(1, ⟨5, 10⟩), (2, ⟨20, 11⟩)]⟩

/-- An effect environment under which callback 0 enqueues new work. -/
def envSample : Nat → List RunLoopEffect :=
  fun c => if c = 0 then [.pushCallback 99, .scheduleTimer 7 3 55] else []

/-- A message channel with two delegates registered in the order
"a" then "b". -/
def mcSample : MessageChannelInner :=
  ⟨1, [], [("a", 1), ("b", 2)]⟩

end NativeShell

namespace NativeShell

/-! ### Association-list lemmas -/

theorem lookupKey_cons {κ β : Type} [DecidableEq κ] (k : κ) (p : κ × β)
    (rest : List (κ × β)) :
    lookupKey k (p :: rest) = if p.1 = k then some p.2 else lookupKey k rest := rfl

theorem lookupKey_insertKey {κ β : Type} [DecidableEq κ] (k : κ) (v : β)
    (l : List (κ × β)) : lookupKey k (insertKey k v l) = some v := by
  simp [insertKey, lookupKey]

theorem lookupKey_updateKey {κ β : Type} [DecidableEq κ] (k : κ) (v : β)
    (l : List (κ × β)) :
    lookupKey k (updateKey k v l) = (lookupKey k l).map (fun _ => v) := by
  induction l with
  | nil => rfl
  | cons p rest ih =>
    by_cases h : p.1 = k
    · simp [updateKey, lookupKey, h]
    · simp [updateKey, lookupKey, h] at ih ⊢
      exact ih

theorem lookupKey_mem {κ β : Type} [DecidableEq κ] {k : κ} {v : β}
    {l : List (κ × β)} (h : lookupKey k l = some v) : (k, v) ∈ l := by
  induction l with
  | nil => simp [lookupKey] at h
  | cons p rest ih =>
    rw [lookupKey_cons] at h
    by_cases hp : p.1 = k
    · simp [hp] at h
      cases p
      simp_all
    · simp [hp] at h
      exact List.mem_cons_of_mem _ (ih h)

theorem lookupKey_isSome_iff {κ β : Type} [DecidableEq κ] (k : κ)
    (l : List (κ × β)) : (lookupKey k l).isSome ↔ k ∈ l.map Prod.fst := by
  induction l with
  | nil => simp [lookupKey]
  | cons p rest ih =>
    rw [lookupKey_cons]
    by_cases hp : p.1 = k
    · simp [hp]
    · simp [hp, ih, Ne.symm hp]

theorem lookupKey_eq_none_of_not_mem {κ β : Type} [DecidableEq κ] {k : κ}
    {l : List (κ × β)} (h : k ∉ l.map Prod.fst) : lookupKey k l = none := by
  rcases ho : lookupKey k l with _ | v
  · rfl
  · exact absurd ((lookupKey_isSome_iff k l).mp (by simp [ho])) h

theorem lookupKey_filter {κ β : Type} [DecidableEq κ] (k : κ) (c : β → Bool)
    (l : List (κ × β)) (hnd : (l.map Prod.fst).Nodup) :
    lookupKey k (l.filter (fun p => c p.2)) =
      match lookupKey k l with
      | some v => if c v then some v else none
      | none => none := by
  induction l with
  | nil => rfl
  | cons p rest ih =>
    simp only [List.map_cons, List.nodup_cons] at hnd
    by_cases hp : p.1 = k
    · subst hp
      rcases hc : c p.2 with _ | _
      · have : lookupKey p.1 (rest.filter (fun q => c q.2)) = none := by
          apply lookupKey_eq_none_of_not_mem
          intro hmem
          exact hnd.1 (by
            rcases List.mem_map.mp hmem with ⟨q, hq, hq1⟩
            exact List.mem_map.mpr ⟨q, (List.mem_filter.mp hq).1, hq1⟩)
        simp [List.filter_cons, hc, lookupKey_cons, this]
      · simp [List.filter_cons, hc, lookupKey_cons]
    · rcases hc : c p.2 with _ | _
      · simpa [List.filter_cons, hc, lookupKey_cons, hp] using ih hnd.2
      · simpa [List.filter_cons, hc, lookupKey_cons, hp] using ih hnd.2

theorem eraseKey_cons_self {κ β : Type} [DecidableEq κ] (p : κ × β)
    (rest : List (κ × β)) : eraseKey p.1 (p :: rest) = rest := by
  simp [eraseKey]

theorem eraseKey_cons_ne {κ β : Type} [DecidableEq κ] {k : κ} {p : κ × β}
    (rest : List (κ × β)) (h : p.1 ≠ k) :
    eraseKey k (p :: rest) = p :: eraseKey k rest := by
  simp [eraseKey, h]

theorem keys_updateKey {κ β : Type} [DecidableEq κ] (k : κ) (v : β)
    (l : List (κ × β)) : (updateKey k v l).map Prod.fst = l.map Prod.fst := by
  induction l with
  | nil => rfl
  | cons p rest ih =>
    by_cases h : p.1 = k
    · simp [updateKey, h] at ih ⊢
      exact ih
    · simp [updateKey, h] at ih ⊢
      exact ih

theorem lookupKey_eraseKey_self {κ β : Type} [DecidableEq κ] {k : κ}
    {l : List (κ × β)} (hnd : (l.map Prod.fst).Nodup) :
    lookupKey k (eraseKey k l) = none := by
  induction l with
  | nil => rfl
  | cons p rest ih =>
    simp only [List.map_cons, List.nodup_cons] at hnd
    by_cases h : p.1 = k
    · rw [eraseKey, if_pos h]
      exact lookupKey_eq_none_of_not_mem (h ▸ hnd.1)
    · rw [eraseKey, if_neg h, lookupKey_cons, if_neg h]
      exact ih hnd.2

/-! ### The drain folds -/

theorem drain_foldl_not_mem {κ β γ : Type} [DecidableEq κ] (g : β → List γ) :
    ∀ (ids : List κ) (p : κ × β) (l : List (κ × β)) (acc : List γ),
      p.1 ∉ ids →
      List.foldl (drainStep g) (p :: l, acc) ids =
        ((List.foldl (drainStep g) (l, acc) ids).1.cons p,
          (List.foldl (drainStep g) (l, acc) ids).2) := by
  intro ids
  induction ids with
  | nil => intro p l acc _; rfl
  | cons k ks ih =>
    intro p l acc hmem
    have hk : p.1 ≠ k := by
      intro h; exact hmem (by simp [h])
    have hks : p.1 ∉ ks := fun h => hmem (by simp [h])
    have hstep : drainStep g (p :: l, acc) k =
        ((drainStep g (l, acc) k).1.cons p, (drainStep g (l, acc) k).2) := by
      simp only [drainStep, lookupKey_cons, hk, if_neg hk]
      rcases lookupKey k l with _ | v
      · rfl
      · simp [eraseKey_cons_ne _ hk]
    rw [List.foldl_cons, List.foldl_cons, hstep]
    exact ih p _ _ hks

theorem drain_foldl {κ β γ : Type} [DecidableEq κ] (g : β → List γ)
    (c : β → Bool) :
    ∀ (l : List (κ × β)) (acc : List γ), (l.map Prod.fst).Nodup →
      List.foldl (drainStep g) (l, acc)
          ((l.filter (fun p => c p.2)).map Prod.fst) =
        (l.filter (fun p => !c p.2),
          acc ++ (l.filter (fun p => c p.2)).flatMap (fun p => g p.2)) := by
  intro l
  induction l with
  | nil => intro acc _; simp
  | cons p rest ih =>
    intro acc hnd
    simp only [List.map_cons, List.nodup_cons] at hnd
    have hrest : p.1 ∉ (rest.filter (fun q => c q.2)).map Prod.fst := by
      intro hmem
      exact hnd.1 (by
        rcases List.mem_map.mp hmem with ⟨q, hq, hq1⟩
        exact List.mem_map.mpr ⟨q, (List.mem_filter.mp hq).1, hq1⟩)
    rcases hc : c p.2 with _ | _
    · rw [List.filter_cons, hc]
      simp only [Bool.false_eq_true, if_false]
      rw [drain_foldl_not_mem g _ p rest acc hrest, ih acc hnd.2]
      simp [List.filter_cons, hc]
    · rw [List.filter_cons, hc]
      simp only [if_true, List.map_cons, List.foldl_cons]
      have hstep : drainStep g (p :: rest, acc) p.1 = (rest, acc ++ g p.2) := by
        simp [drainStep, lookupKey_cons, eraseKey_cons_self]
      rw [hstep, ih (acc ++ g p.2) hnd.2]
      simp [List.filter_cons, hc]

theorem flatMap_singleton_eq_map {α γ : Type} (g : α → γ) (l : List α) :
    l.flatMap (fun x => [g x]) = l.map g := by
  induction l with
  | nil => rfl
  | cons a rest ih => simp [List.flatMap_cons, ih]

theorem flatMap_toList_eq_filterMap {α γ : Type} (f : α → Option γ)
    (l : List α) : l.flatMap (fun x => (f x).toList) = l.filterMap f := by
  induction l with
  | nil => rfl
  | cons a rest ih =>
    rcases h : f a with _ | v
    · simp [List.flatMap_cons, h, ih, List.filterMap_cons]
    · simp [List.flatMap_cons, h, ih, List.filterMap_cons]

theorem get_pending_execution_eq (now : Nat) (s : RunLoopState α)
    (hnd : (s.timers.map Prod.fst).Nodup) :
    get_pending_execution now s =
      ({ callbacks := s.callbacks,
         timers := (s.timers.filter (fun v => dueCond now v.2)).map Prod.snd },
        { callbacks := [],
          timers := s.timers.filter (fun v => !dueCond now v.2) }) := by
  simp only [get_pending_execution]
  rw [drain_foldl (fun t => [t]) (dueCond now) s.timers [] hnd]
  simp [flatMap_singleton_eq_map]

theorem finalize_all_eq (st : FinalizableHandleState) (I : Nat)
    (hnd : (st.objects.map Prod.fst).Nodup) :
    finalize_all st I =
      (⟨st.objects.filter (fun p => !finalizeCond I p.2)⟩,
        if ((st.objects.filter (fun p => finalizeCond I p.2)).filterMap
              (fun p => p.2.finalizer)).isEmpty
        then []
        else [(st.objects.filter (fun p => finalizeCond I p.2)).filterMap
              (fun p => p.2.finalizer)]) := by
  simp only [finalize_all]
  rw [drain_foldl (fun obj => obj.finalizer.toList) (finalizeCond I)
    st.objects [] hnd]
  rw [show ((st.objects.filter (fun p => finalizeCond I p.2)).flatMap
      fun p => p.2.finalizer.toList) =
      (st.objects.filter (fun p => finalizeCond I p.2)).filterMap
        (fun p => p.2.finalizer) from
    flatMap_toList_eq_filterMap _ _]
  simp

/-! ### Claim theorems -/

/-- Claim C1: a drain pass of the run loop first removes from the live
structures all currently-queued immediate callbacks and all timers whose
scheduled instant is at or before `now` (the residual state has no queued
callbacks and exactly the not-yet-due timers), and what the pass executes
is exactly that batch: the immediate callbacks in insertion order followed
by the due timers.  The executed list is computed from the pre-pass state
alone — it is the same for every effect environment `env` — so work
enqueued or rescheduled by a callback during the pass is never executed in
that same pass. -/
theorem run_loop_drain_pass (env : Nat → List RunLoopEffect) (now : Nat)
    (s : RunLoopState Nat) (hnd : (s.timers.map Prod.fst).Nodup) :
    (pollRunLoop env now s).2 =
        s.callbacks ++
          (s.timers.filter (fun v => dueCond now v.2)).map
            (fun v => v.2.callback)
    ∧ (get_pending_execution now s).2.callbacks = []
    ∧ (get_pending_execution now s).2.timers =
        s.timers.filter (fun v => !dueCond now v.2) := by
  have h := get_pending_execution_eq now s hnd
  refine ⟨?_, by rw [h], by rw [h]⟩
  simp only [pollRunLoop, h]
  simp [List.map_map, Function.comp]

theorem run_loop_drain_pass_witness :
    ((rlSample.timers.map Prod.fst).Nodup)
    ∧ ((pollRunLoop envSample 5 rlSample).2 =
        rlSample.callbacks ++
          (rlSample.timers.filter (fun v => dueCond 5 v.2)).map
            (fun v => v.2.callback)
      ∧ (get_pending_execution 5 rlSample).2.callbacks = []
      ∧ (get_pending_execution 5 rlSample).2.timers =
          rlSample.timers.filter (fun v => !dueCond 5 v.2)) :=
  ⟨by decide, run_loop_drain_pass envSample 5 rlSample (by decide)⟩

/-- Claim C3: dropping a `FinalizableHandle` wrapper always clears the
stored finalizer (the surviving row, and the removed row value, both carry
no finalizer, so the finalizer never runs as a consequence of the drop),
and the registry row survives the drop exactly when a host weak reference
is attached at that moment. -/
theorem finalizable_handle_drop_spec (st : FinalizableHandleState) (id : Int)
    (hnd : (st.objects.map Prod.fst).Nodup) :
    (∀ obj, lookupKey id (dropFinalizableHandle st id).1.objects = some obj →
        obj.finalizer = none)
    ∧ (∀ r, (dropFinalizableHandle st id).2 = some r → r.finalizer = none)
    ∧ ((lookupKey id (dropFinalizableHandle st id).1.objects).isSome ↔
        ∃ obj, lookupKey id st.objects = some obj ∧ obj.handle.isSome) := by
  rcases hlk : lookupKey id st.objects with _ | obj
  · refine ⟨?_, ?_, ?_⟩
    · intro o ho
      rw [dropFinalizableHandle, hlk] at ho
      rw [hlk] at ho
      simp at ho
    · intro r hr
      rw [dropFinalizableHandle, hlk] at hr
      simp at hr
    · rw [dropFinalizableHandle, hlk]
      simp [hlk]
  · rcases hh : obj.handle.isSome with _ | _
    · have hdrop : dropFinalizableHandle st id =
          (⟨eraseKey id (updateKey id { obj with finalizer := none }
            st.objects)⟩, some { obj with finalizer := none }) := by
        rw [dropFinalizableHandle, hlk]
        simp [hh]
      have hkeys : ((updateKey id { obj with finalizer := none }
          st.objects).map Prod.fst).Nodup := by
        rw [keys_updateKey]; exact hnd
      refine ⟨?_, ?_, ?_⟩
      · intro o ho
        rw [hdrop] at ho
        simp only at ho
        rw [lookupKey_eraseKey_self hkeys] at ho
        exact absurd ho (by simp)
      · intro r hr
        rw [hdrop] at hr
        simp only at hr
        simp at hr
        simp [← hr]
      · rw [hdrop]
        simp only
        rw [lookupKey_eraseKey_self hkeys]
        simp [hlk, hh]
    · have hdrop : dropFinalizableHandle st id =
          (⟨updateKey id { obj with finalizer := none } st.objects⟩, none) := by
        rw [dropFinalizableHandle, hlk]
        simp [hh]
      refine ⟨?_, ?_, ?_⟩
      · intro o ho
        rw [hdrop] at ho
        simp only at ho
        rw [lookupKey_updateKey, hlk] at ho
        simp at ho
        simp [← ho]
      · intro r hr
        rw [hdrop] at hr
        simp at hr
      · rw [hdrop]
        simp only
        rw [lookupKey_updateKey, hlk]
        exact ⟨fun _ => ⟨obj, rfl, hh⟩, fun _ => by simp⟩

theorem finalizable_handle_drop_spec_witness :
    ((regSample.objects.map Prod.fst).Nodup)
    ∧ ((∀ obj,
          lookupKey 0 (dropFinalizableHandle regSample 0).1.objects = some obj →
          obj.finalizer = none)
      ∧ (∀ r, (dropFinalizableHandle regSample 0).2 = some r →
          r.finalizer = none)
      ∧ ((lookupKey 0 (dropFinalizableHandle regSample 0).1.objects).isSome ↔
          ∃ obj, lookupKey 0 regSample.objects = some obj ∧ obj.handle.isSome)) :=
  ⟨by decide, finalizable_handle_drop_spec regSample 0 (by decide)⟩

/-- Claim C4: `finalize_all I` removes exactly the rows of isolate `I` that
have no attached weak reference (rows of other isolates, and attached rows
of `I`, are returned unchanged by lookup), and the removed rows' remaining
finalizers are handed off in at most one batched send, whose content is
exactly those finalizers. -/
theorem finalize_all_spec (st : FinalizableHandleState) (I : Nat)
    (hnd : (st.objects.map Prod.fst).Nodup) :
    (∀ id, lookupKey id (finalize_all st I).1.objects =
        match lookupKey id st.objects with
        | some obj => if finalizeCond I obj then none else some obj
        | none => none)
    ∧ (finalize_all st I).2.length ≤ 1
    ∧ (finalize_all st I).2.flatten =
        (st.objects.filter (fun p => finalizeCond I p.2)).filterMap
          (fun p => p.2.finalizer) := by
  rw [finalize_all_eq st I hnd]
  refine ⟨?_, ?_, ?_⟩
  · intro id
    simp only
    rw [lookupKey_filter id (fun obj => !finalizeCond I obj) st.objects hnd]
    rcases lookupKey id st.objects with _ | v
    · rfl
    · rcases h : finalizeCond I v with _ | _ <;> simp [h]
  · rcases h : ((st.objects.filter (fun p => finalizeCond I p.2)).filterMap
        (fun p => p.2.finalizer)).isEmpty with _ | _ <;> simp [h]
  · by_cases h : ((st.objects.filter (fun p => finalizeCond I p.2)).filterMap
        (fun p => p.2.finalizer)).isEmpty = true
    · rw [if_pos h]
      simp [List.isEmpty_iff.mp h]
    · rw [if_neg h]
      simp

theorem finalize_all_spec_witness :
    ((regSample.objects.map Prod.fst).Nodup)
    ∧ ((∀ id, lookupKey id (finalize_all regSample 1).1.objects =
          match lookupKey id regSample.objects with
          | some obj => if finalizeCond 1 obj then none else some obj
          | none => none)
      ∧ (finalize_all regSample 1).2.length ≤ 1
      ∧ (finalize_all regSample 1).2.flatten =
          (regSample.objects.filter (fun p => finalizeCond 1 p.2)).filterMap
            (fun p => p.2.finalizer)) :=
  ⟨by decide, finalize_all_spec regSample 1 (by decide)⟩

/-- Claim C5: dropping a `FinalizableObjectState` row panics exactly when
the row still holds an attached weak reference; and every operation that
removes rows only ever drops rows without a handle — the native drop of an
unattached wrapper, `finalize_all`, and the host finalization path (the GC
callback clears the handle before `finalize_handle` removes the row) — so
the panic branch is unreachable on those paths. -/
theorem object_state_drop_panic_spec (st : FinalizableHandleState) (id : Int)
    (I : Nat) (hnd : (st.objects.map Prod.fst).Nodup) :
    (∀ obj : FinalizableObjectState,
        objectDropPanics obj = true ↔ obj.handle ≠ none)
    ∧ (∀ r, (dropFinalizableHandle st id).2 = some r →
        objectDropPanics r = false)
    ∧ (∀ obj, lookupKey id st.objects = some obj →
        lookupKey id (finalize_all st I).1.objects = none →
        objectDropPanics obj = false)
    ∧ (∀ r, (finalize_handle (gcFinalizer st id) id).2.1 = some r →
        objectDropPanics r = false) := by
  refine ⟨?_, ?_, ?_, ?_⟩
  · intro obj
    rw [objectDropPanics, Option.isSome_iff_ne_none]
  · intro r hr
    rcases hlk : lookupKey id st.objects with _ | obj
    · rw [dropFinalizableHandle, hlk] at hr
      simp at hr
    · rcases hh : obj.handle.isSome with _ | _
      · rw [dropFinalizableHandle, hlk] at hr
        simp only [hh] at hr
        simp at hr
        simp [← hr, objectDropPanics, hh]
      · rw [dropFinalizableHandle, hlk] at hr
        simp [hh] at hr
  · intro obj hobj habs
    have hchar := (finalize_all_spec st I hnd).1 id
    rw [habs, hobj] at hchar
    have hchar2 : (none : Option FinalizableObjectState) =
        if finalizeCond I obj = true then none else some obj := hchar
    rcases hc : finalizeCond I obj with _ | _
    · rw [hc] at hchar2
      simp at hchar2
    · have : obj.handle.isNone := by
        have hcc := hc
        rw [finalizeCond] at hcc
        exact (Bool.and_elim_right hcc)
      rw [objectDropPanics]
      simp [Option.isNone_iff_eq_none.mp this]
  · intro r hr
    rcases hlk : lookupKey id st.objects with _ | obj
    · rw [gcFinalizer, hlk] at hr
      rw [finalize_handle, hlk] at hr
      simp at hr
    · rw [gcFinalizer, hlk] at hr
      rw [finalize_handle] at hr
      simp only at hr
      rw [lookupKey_updateKey, hlk] at hr
      simp at hr
      simp [← hr, objectDropPanics]

theorem object_state_drop_panic_spec_witness :
    ((regSample.objects.map Prod.fst).Nodup)
    ∧ ((∀ obj : FinalizableObjectState,
          objectDropPanics obj = true ↔ obj.handle ≠ none)
      ∧ (∀ r, (dropFinalizableHandle regSample 2).2 = some r →
          objectDropPanics r = false)
      ∧ (∀ obj, lookupKey 2 regSample.objects = some obj →
          lookupKey 2 (finalize_all regSample 1).1.objects = none →
          objectDropPanics obj = false)
      ∧ (∀ r, (finalize_handle (gcFinalizer regSample 2) 2).2.1 = some r →
          objectDropPanics r = false)) :=
  ⟨by decide, object_state_drop_panic_spec regSample 2 1 (by decide)⟩

/-- Claim C10: `is_finalized` is true exactly when the registry holds no
row for the handle's id; it is false for the id just produced by `new`
(whose row was inserted); and as soon as `finalize_all` has removed a
still-unattached row of the isolate, `is_finalized` on that id is already
true even though the row's finalizer has merely been scheduled: it still
sits in the batched hand-off returned alongside the new registry. -/
theorem is_finalized_spec (st : FinalizableHandleState) (counter es : Int)
    (I : Nat) (fin : Nat) (id : Int)
    (hnd : (st.objects.map Prod.fst).Nodup) :
    (is_finalized st id = true ↔ lookupKey id st.objects = none)
    ∧ is_finalized (newFinalizableHandle st counter es I fin).1
        (newFinalizableHandle st counter es I fin).2.1 = false
    ∧ (∀ obj, lookupKey id st.objects = some obj → finalizeCond I obj = true →
        is_finalized (finalize_all st I).1 id = true
        ∧ ∀ f, obj.finalizer = some f → f ∈ (finalize_all st I).2.flatten) := by
  refine ⟨?_, ?_, ?_⟩
  · rw [is_finalized, Option.isNone_iff_eq_none]
  · rw [is_finalized, newFinalizableHandle]
    simp only
    rw [lookupKey_insertKey]
    rfl
  · intro obj hobj hc
    have hchar := (finalize_all_spec st I hnd).1 id
    rw [hobj] at hchar
    have hchar2 : lookupKey id (finalize_all st I).1.objects =
        if finalizeCond I obj = true then none else some obj := hchar
    rw [hc] at hchar2
    simp only [if_true] at hchar2
    constructor
    · rw [is_finalized, hchar2]
      rfl
    · intro f hf
      rw [(finalize_all_spec st I hnd).2.2]
      exact List.mem_filterMap.mpr ⟨(id, obj),
        List.mem_filter.mpr ⟨lookupKey_mem hobj, hc⟩, hf⟩

theorem is_finalized_spec_witness :
    ((regSample.objects.map Prod.fst).Nodup)
    ∧ ((is_finalized regSample 0 = true ↔ lookupKey 0 regSample.objects = none)
      ∧ is_finalized (newFinalizableHandle regSample 4 8 1 9).1
          (newFinalizableHandle regSample 4 8 1 9).2.1 = false
      ∧ (∀ obj, lookupKey 0 regSample.objects = some obj →
          finalizeCond 1 obj = true →
          is_finalized (finalize_all regSample 1).1 0 = true
          ∧ ∀ f, obj.finalizer = some f →
              f ∈ (finalize_all regSample 1).2.flatten)) :=
  ⟨by decide, is_finalized_spec regSample 4 8 1 9 0 (by decide)⟩

/-- Claim C2: `send_and_wait` executes the callback synchronously in place
(enqueuing nothing) when the calling thread is the run loop's owner thread;
otherwise it enqueues exactly one closure and blocks on a single-use
blocking variable that the owner thread fills by executing the callback.
On both paths the caller receives exactly the value the callback
produced. -/
theorem send_and_wait_spec {R : Type} (sender : RunLoopSenderModel)
    (callerThread : Nat) (cb : Unit → R) :
    send_and_wait_result sender callerThread cb = some (cb ())
    ∧ (callerThread = sender.thread_id →
        send_and_wait sender callerThread cb = (some (cb ()), []))
    ∧ (callerThread ≠ sender.thread_id →
        (send_and_wait sender callerThread cb).1 = none
        ∧ (send_and_wait sender callerThread cb).2.length = 1
        ∧ (ownerService (send_and_wait sender callerThread cb).2
            (mkBlockingVariable R)).get_blocking = some (cb ())) := by
  by_cases h : callerThread = sender.thread_id
  · refine ⟨?_, fun _ => ?_, fun hc => absurd h hc⟩
    · rw [send_and_wait_result, send_and_wait, if_pos h]
    · rw [send_and_wait, if_pos h]
  · refine ⟨?_, fun hc => absurd hc h, fun _ => ⟨?_, ?_, ?_⟩⟩
    · rw [send_and_wait_result, send_and_wait, if_neg h]
      rfl
    · rw [send_and_wait, if_neg h]
    · rw [send_and_wait, if_neg h]
      rfl
    · rw [send_and_wait, if_neg h]
      rfl

theorem send_and_wait_spec_witness :
    (send_and_wait_result ⟨0⟩ 0 (fun _ => (42 : Nat)) = some 42
      ∧ (send_and_wait ⟨0⟩ 0 (fun _ => (42 : Nat)) = (some 42, [])))
    ∧ ((1 : Nat) ≠ (0 : Nat)
      ∧ send_and_wait_result ⟨0⟩ 1 (fun _ => (42 : Nat)) = some 42
      ∧ (send_and_wait (R := Nat) ⟨0⟩ 1 (fun _ => 42)).1 = none
      ∧ (send_and_wait (R := Nat) ⟨0⟩ 1 (fun _ => 42)).2.length = 1
      ∧ (ownerService (send_and_wait ⟨0⟩ 1 (fun _ => (42 : Nat))).2
          (mkBlockingVariable Nat)).get_blocking = some 42) :=
  ⟨⟨(send_and_wait_spec ⟨0⟩ 0 (fun _ => 42)).1,
      (send_and_wait_spec ⟨0⟩ 0 (fun _ => 42)).2.1 rfl⟩,
    by decide,
    (send_and_wait_spec ⟨0⟩ 1 (fun _ => 42)).1,
    ((send_and_wait_spec ⟨0⟩ 1 (fun _ => 42)).2.2 (by decide)).1,
    ((send_and_wait_spec ⟨0⟩ 1 (fun _ => 42)).2.2 (by decide)).2.1,
    ((send_and_wait_spec ⟨0⟩ 1 (fun _ => 42)).2.2 (by decide)).2.2⟩

/-- Claim C9: polling a `JoinHandle` returns `Ready` with the produced
value, taking it out of the task, whenever one is present; otherwise it
returns `Pending` and stores the polling context's waker only if none is
currently stored, so the first waker registered in a resumption cycle is
kept and later polls do not overwrite it. -/
theorem join_handle_poll_spec {T W : Type} (st : TaskSharedState T W)
    (cxWaker : W) :
    (∀ v, st.value = some v →
        joinHandlePoll st cxWaker = (.ready v, { value := none, waker := st.waker }))
    ∧ (st.value = none →
        (joinHandlePoll st cxWaker).1 = PollOutcome.pending
        ∧ (st.waker = none →
            (joinHandlePoll st cxWaker).2.waker = some cxWaker)
        ∧ (∀ w, st.waker = some w →
            (joinHandlePoll st cxWaker).2.waker = some w)) := by
  constructor
  · intro v hv
    rw [joinHandlePoll, hv]
  · intro hv
    rw [joinHandlePoll, hv]
    refine ⟨rfl, fun hw => by simp [hw], fun w hw => by simp [hw]⟩

theorem join_handle_poll_spec_witness :
    (((7 : Nat), (3 : Nat)) = (7, 3)
      ∧ joinHandlePoll (T := Nat) (W := Nat) ⟨some 7, some 3⟩ 4 =
          (.ready 7, { value := none, waker := some 3 }))
    ∧ ((joinHandlePoll (T := Nat) (W := Nat) ⟨none, none⟩ 4).1 =
          PollOutcome.pending
      ∧ (joinHandlePoll (T := Nat) (W := Nat) ⟨none, none⟩ 4).2.waker = some 4
      ∧ (joinHandlePoll (T := Nat) (W := Nat) ⟨none, some 3⟩ 4).2.waker =
          some 3) :=
  ⟨⟨rfl, (join_handle_poll_spec ⟨some 7, some 3⟩ 4).1 7 rfl⟩,
    ((join_handle_poll_spec (T := Nat) (W := Nat) ⟨none, none⟩ 4).2 rfl).1,
    ((join_handle_poll_spec (T := Nat) (W := Nat) ⟨none, none⟩ 4).2 rfl).2.1 rfl,
    ((join_handle_poll_spec (T := Nat) (W := Nat) ⟨none, some 3⟩ 4).2 rfl).2.2
      3 rfl⟩

/-! ### Context attachment drop order -/

theorem indexFrom_append (t : Nat) :
    ∀ (n : Nat) (l : List Nat),
      indexFrom n (l ++ [t]) = indexFrom n l ++ [(t, n + l.length)] := by
  intro n l
  induction l generalizing n with
  | nil => simp [indexFrom]
  | cons a rest ih =>
    show (a, n) :: indexFrom (n + 1) (rest ++ [t]) =
      (a, n) :: (indexFrom (n + 1) rest ++ [(t, n + (rest.length + 1))])
    rw [ih (n + 1), show n + 1 + rest.length = n + (rest.length + 1) from by
      omega]

theorem keys_indexFrom : ∀ (n : Nat) (l : List Nat),
    (indexFrom n l).map Prod.fst = l := by
  intro n l
  induction l generalizing n with
  | nil => rfl
  | cons a rest ih => simp [indexFrom, ih (n + 1)]

theorem length_indexFrom : ∀ (n : Nat) (l : List Nat),
    (indexFrom n l).length = l.length := by
  intro n l
  induction l generalizing n with
  | nil => rfl
  | cons a rest ih => simp [indexFrom, ih (n + 1)]

theorem snd_indexFrom_lt : ∀ (n : Nat) (l : List Nat) (p : Nat × Nat),
    p ∈ indexFrom n l → p.2 < n + l.length := by
  intro n l
  induction l generalizing n with
  | nil => intro p hp; simp [indexFrom] at hp
  | cons a rest ih =>
    intro p hp
    rw [indexFrom] at hp
    rcases List.mem_cons.mp hp with h | h
    · subst h; simp
    · have := ih (n + 1) p h
      simp at this ⊢
      omega

theorem find?_append_of_none {α : Type} (p : α → Bool) (A B : List α)
    (h : A.find? p = none) : (A ++ B).find? p = B.find? p := by
  induction A with
  | nil => rfl
  | cons a rest ih =>
    rw [List.find?_cons] at h
    rcases hp : p a with _ | _
    · rw [List.cons_append, List.find?_cons, hp]
      exact ih (by rw [hp] at h; simpa using h)
    · rw [hp] at h; simp at h

theorem eraseKey_append_not_mem {κ β : Type} [DecidableEq κ] {k : κ}
    (A B : List (κ × β)) (h : k ∉ A.map Prod.fst) :
    eraseKey k (A ++ B) = A ++ eraseKey k B := by
  induction A with
  | nil => rfl
  | cons a rest ih =>
    simp only [List.map_cons, List.mem_cons] at h
    push_neg at h
    rw [List.cons_append, eraseKey_cons_ne _ (Ne.symm h.1), ih h.2,
      List.cons_append]

theorem buildAttachments_fold : ∀ (reqs occs : List Nat),
    reqs.foldl get_attachment (indexFrom 0 occs) =
      indexFrom 0
        (reqs.foldl (fun acc r => if r ∈ acc then acc else acc ++ [r]) occs) := by
  intro reqs
  induction reqs with
  | nil => intro occs; rfl
  | cons r rest ih =>
    intro occs
    rw [List.foldl_cons, List.foldl_cons]
    have hga : get_attachment (indexFrom 0 occs) r =
        indexFrom 0 (if r ∈ occs then occs else occs ++ [r]) := by
      rw [get_attachment]
      by_cases h : r ∈ occs
      · rw [if_pos ((lookupKey_isSome_iff r (indexFrom 0 occs)).mpr
          (by rw [keys_indexFrom]; exact h)), if_pos h]
      · rw [if_neg (by
            intro hs
            exact h (by
              have := (lookupKey_isSome_iff r (indexFrom 0 occs)).mp hs
              rwa [keys_indexFrom] at this)),
          if_neg h, length_indexFrom, indexFrom_append]
        simp
    rw [hga]
    exact ih _

theorem buildAttachments_eq (reqs : List Nat) :
    buildAttachments reqs = indexFrom 0 (firstOccurrences reqs) := by
  have h := buildAttachments_fold reqs []
  simpa [indexFrom, buildAttachments, firstOccurrences] using h

theorem firstOcc_fold_nodup : ∀ (reqs occs : List Nat), occs.Nodup →
    (reqs.foldl (fun acc r => if r ∈ acc then acc else acc ++ [r]) occs).Nodup := by
  intro reqs
  induction reqs with
  | nil => intro occs h; exact h
  | cons r rest ih =>
    intro occs h
    rw [List.foldl_cons]
    by_cases hr : r ∈ occs
    · rw [if_pos hr] at *
      exact ih occs h
    · rw [if_neg hr] at *
      refine ih _ (List.nodup_append.mpr ⟨h, List.nodup_singleton r, ?_⟩)
      intro a ha hb
      rw [List.mem_singleton] at hb
      exact hr (hb ▸ ha)

theorem firstOccurrences_nodup (reqs : List Nat) :
    (firstOccurrences reqs).Nodup :=
  firstOcc_fold_nodup reqs [] List.nodup_nil

theorem contextDropLoop_indexFrom :
    ∀ (ins : List Nat), ins.Nodup →
      contextDropLoop (indexFrom 0 ins).length (indexFrom 0 ins) =
        some ins.reverse := by
  intro ins
  induction ins using List.reverseRecOn with
  | nil => intro _; rfl
  | append_singleton l t ih =>
    intro hnd
    have hnl : l.Nodup := (List.nodup_append.mp hnd).1
    have htl : t ∉ l := by
      intro hmem
      exact ((List.nodup_append.mp hnd).2.2 hmem) (List.mem_singleton_self t)
    by_cases hl0 : l.length = 0
    · rw [List.length_eq_zero.mp hl0]
      rfl
    · rw [indexFrom_append t 0 l]
      simp only [Nat.zero_add]
      have hAlen : (indexFrom 0 l).length = l.length := length_indexFrom 0 l
      have hlen : (indexFrom 0 l ++ [(t, l.length)]).length = l.length + 1 := by
        simp [hAlen]
      rw [hlen, contextDropLoop]
      have hne : (indexFrom 0 l ++ [(t, l.length)]).isEmpty = false := by
        rcases h : indexFrom 0 l with _ | _ <;> rfl
      have hfindA :
          (indexFrom 0 l).find? (fun e => e.2 == l.length) = none := by
        rw [List.find?_eq_none]
        intro p hp
        have hlt := snd_indexFrom_lt 0 l p hp
        simp only [Nat.zero_add] at hlt
        simp only [beq_eq_false_iff_ne, ne_eq, Bool.not_eq_true]
        omega
      have hfindT :
          ([(t, l.length)].find? (fun e => e.2 == l.length)) =
            some (t, l.length) := by
        rw [List.find?_cons]
        simp
      have herase : eraseKey t (indexFrom 0 l ++ [(t, l.length)]) =
          indexFrom 0 l := by
        rw [eraseKey_append_not_mem _ _ (by rw [keys_indexFrom]; exact htl)]
        simp [eraseKey]
      have ihres := ih hnl
      rw [hAlen] at ihres
      simp only [hne, Bool.false_eq_true, if_false, hlen, Nat.add_sub_cancel,
        if_neg hl0]
      rw [find?_append_of_none _ _ _ hfindA, hfindT]
      simp only [herase, ihres, List.reverse_append]
      rfl

/-- Claim C6: when the outermost `Context` is dropped, its attachments are
destroyed one at a time in exactly the reverse of their insertion order —
for every sequence of `get_attachment` requests made during the
`Context`'s lifetime (and the `expect` in the drop loop never panics). -/
theorem context_drop_reverse_order (reqs : List Nat) :
    contextDropOrder (buildAttachments reqs) =
      some (firstOccurrences reqs).reverse := by
  rw [contextDropOrder, buildAttachments_eq]
  exact contextDropLoop_indexFrom (firstOccurrences reqs)
    (firstOccurrences_nodup reqs)

/-! ### Message channel -/

/-- Claim C7 counterexample: `unregister_isolate` does not remove the
isolate from the `isolates` map, so sending to an isolate id that has
already exited still invokes its channel handler instead of replying
`Err(InvalidIsolate)`.  Concretely: register an isolate (id 1) with a
handler on "ping", unregister it, then send to id 1. -/
theorem send_message_exited_isolate_counterexample :
    send_message
        (unregister_isolate
          (register_isolate ⟨1, [], []⟩ ⟨[("ping", 7)]⟩ []).1 ⟨[]⟩
          (register_isolate ⟨1, [], []⟩ ⟨[("ping", 7)]⟩ []).2.1 []).1
        (register_isolate ⟨1, [], []⟩ ⟨[("ping", 7)]⟩ []).2.1 "ping" =
      SendMessageOutcome.handlerInvoked 7
    ∧ send_message
        (unregister_isolate
          (register_isolate ⟨1, [], []⟩ ⟨[("ping", 7)]⟩ []).1 ⟨[]⟩
          (register_isolate ⟨1, [], []⟩ ⟨[("ping", 7)]⟩ []).2.1 []).1
        (register_isolate ⟨1, [], []⟩ ⟨[("ping", 7)]⟩ []).2.1 "ping" ≠
      SendMessageOutcome.invalidIsolate := by
  constructor
  · rfl
  · decide

/-- Claim C7 (amended): for every isolate id with no entry in the
`isolates` map — in particular an id that was never registered —
`send_message` makes the reply receive `Err(InvalidIsolate)` and invokes no
channel handler.  `unregister_isolate` however leaves the `isolates` map
unchanged, so an id whose isolate has exited still routes to its
handlers. -/
theorem send_message_invalid_isolate (st : MessageChannelInner) (target : Nat)
    (channel : String) (h : lookupKey target st.isolates = none) :
    send_message st target channel = SendMessageOutcome.invalidIsolate
    ∧ (∀ hd, send_message st target channel ≠
        SendMessageOutcome.handlerInvoked hd)
    ∧ (∀ registry iso iter,
        (unregister_isolate st registry iso iter).1.isolates = st.isolates) := by
  have hsend : send_message st target channel =
      SendMessageOutcome.invalidIsolate := by
    rw [send_message, h]
  refine ⟨hsend, ?_, fun _ _ _ => rfl⟩
  intro hd hinv
  rw [hsend] at hinv
  exact SendMessageOutcome.noConfusion hinv

theorem send_message_invalid_isolate_witness :
    (lookupKey 5 (mcSample.isolates) = none)
    ∧ (send_message mcSample 5 "ping" = SendMessageOutcome.invalidIsolate
      ∧ (∀ hd, send_message mcSample 5 "ping" ≠
          SendMessageOutcome.handlerInvoked hd)
      ∧ (∀ registry iso iter,
          (unregister_isolate mcSample registry iso iter).1.isolates =
            mcSample.isolates)) :=
  ⟨rfl, send_message_invalid_isolate mcSample 5 "ping" rfl⟩

/-- Claim C8 counterexample: the delegates live in a `HashMap` and are
notified via `values()`, whose iteration order is unspecified.  With
delegates registered in the order "a" (delegate 1) then "b" (delegate 2),
the iteration order `[("b", 2), ("a", 1)]` is a permutation of the
registered delegates, yet the notification order it produces, `[2, 1]`,
differs from the registration order `[1, 2]`. -/
theorem isolate_joined_order_counterexample :
    mcSample = register_delegate (register_delegate ⟨1, [], []⟩ "a" 1) "b" 2
    ∧ List.Perm [("b", 2), ("a", 1)] mcSample.delegates
    ∧ (register_isolate mcSample ⟨[]⟩ [("b", 2), ("a", 1)]).2.2.map Prod.fst ≠
        mcSample.delegates.map Prod.snd := by
  refine ⟨rfl, ?_, by decide⟩
  exact List.Perm.swap _ _ _

/-- Claim C8 (amended): when an isolate joins, `on_isolate_joined` is
invoked exactly once on every delegate registered at that moment, each with
the fresh isolate id — but the invocation order across delegates is the
`HashMap` `values()` iteration order, an arbitrary permutation of the
registered delegates, not necessarily their registration order. -/
theorem isolate_joined_notifies_all (st : MessageChannelInner)
    (iso : MockIsolate) (iter : List (String × Nat))
    (hiter : List.Perm iter st.delegates) :
    List.Perm ((register_isolate st iso iter).2.2.map Prod.fst)
        (st.delegates.map Prod.snd)
    ∧ (∀ p, p ∈ (register_isolate st iso iter).2.2 → p.2 = st.next_isolate)
    ∧ (register_isolate st iso iter).2.1 = st.next_isolate
    ∧ lookupKey st.next_isolate
        (register_isolate st iso iter).1.isolates = some iso := by
  refine ⟨?_, ?_, rfl, ?_⟩
  · have hmap := hiter.map Prod.snd
    have : (register_isolate st iso iter).2.2.map Prod.fst =
        iter.map Prod.snd := by
      simp [register_isolate, List.map_map, Function.comp]
    rw [this]
    exact hmap
  · intro p hp
    simp only [register_isolate, List.mem_map] at hp
    rcases hp with ⟨d, _, hd⟩
    rw [← hd]
  · simp only [register_isolate]
    exact lookupKey_insertKey _ _ _

theorem isolate_joined_notifies_all_witness :
    (List.Perm [("b", 2), ("a", 1)] mcSample.delegates)
    ∧ (List.Perm
        ((register_isolate mcSample ⟨[]⟩ [("b", 2), ("a", 1)]).2.2.map Prod.fst)
        (mcSample.delegates.map Prod.snd)
      ∧ (∀ p, p ∈ (register_isolate mcSample ⟨[]⟩ [("b", 2), ("a", 1)]).2.2 →
          p.2 = mcSample.next_isolate)
      ∧ (register_isolate mcSample ⟨[]⟩ [("b", 2), ("a", 1)]).2.1 =
          mcSample.next_isolate
      ∧ lookupKey mcSample.next_isolate
          (register_isolate mcSample ⟨[]⟩ [("b", 2), ("a", 1)]).1.isolates =
          some ⟨[]⟩) :=
  ⟨List.Perm.swap _ _ _,
    isolate_joined_notifies_all mcSample ⟨[]⟩ [("b", 2), ("a", 1)]
      (List.Perm.swap _ _ _)⟩

end NativeShell
